import Mathlib

set_option maxRecDepth 100000

/-!
Verification of the topic-resolution and duplicate-detection engine of the
Telegram-Share-Bot repository.

The Python sources are shallowly embedded as executable Lean definitions:
strings are modelled by their lists of characters, Python `float` arithmetic
on similarity scores is modelled by exact rational arithmetic (`ℚ`), the
Telegram API collaborator of `get_or_create_topic` is modelled by an explicit
result value, and the file-system interaction of `load_topics` is modelled by
an explicit `Except` input.
-/

namespace TelegramShareBot

/-! ### Python character classes

The cleanup regexes of `normalize_topic_name` run after every character with
code point ≥ 128 has been replaced by a space, so only the ASCII meaning of
`\s` and `\w` is relevant: `\s` is space, tab, newline, carriage return,
vertical tab and form feed; `\w` is a letter, a digit or an underscore. -/

def pySpace (c : Char) : Bool :=
  c.toNat = 32 || c.toNat = 9 || c.toNat = 10 || c.toNat = 13 ||
  c.toNat = 11 || c.toNat = 12

def pyWord (c : Char) : Bool :=
  (65 ≤ c.toNat && c.toNat ≤ 90) || (97 ≤ c.toNat && c.toNat ≤ 122) ||
  (48 ≤ c.toNat && c.toNat ≤ 57) || c.toNat = 95

/-! ### Unicode normalization stage

Steps 1–3 of `ImprovedDuplicateDetector.normalize_topic_name`
(`duplicate_detector.py` lines 51–61) and the corresponding steps of
`telegram_bot.py`'s `normalize_topic_name` (lines 55–57): NFD decomposition,
removal of combining marks (category `Mn`), and (in the detector only) NFC
recomposition, which is the identity on a mark-free string.

`nfdDecomp` is a finite table of canonical decompositions, faithful for the
characters appearing in this development: ASCII characters and the symbols
used in the concrete witnesses have no decomposition, and accented Latin
letters decompose into the base letter followed by a combining mark. -/

def nfdDecomp (c : Char) : List Char :=
  if c = 'é' then ['e', Char.ofNat 0x301]
  else if c = 'á' then ['a', Char.ofNat 0x301]
  else if c = 'ç' then ['c', Char.ofNat 0x327]
  else [c]

/-- Combining marks produced by `nfdDecomp` all lie in the Combining
Diacritical Marks block U+0300–U+036F, every character of which has
category `Mn`. -/
def isMn (c : Char) : Bool :=
  0x300 ≤ c.toNat && c.toNat ≤ 0x36F

def unicodeStage (s : List Char) : List Char :=
  ((s.map nfdDecomp).flatten).filter (fun c => !isMn c)

/-! ### ASCII projection and regex cleanup -/

/-- Step 4: every character with code point ≥ 128 becomes a single space. -/
def asciiProject (s : List Char) : List Char :=
  s.map (fun c => if c.toNat < 128 then c else ' ')

/-- `re.sub(r'[^\w\s]', ' ', s)`: every character that is neither a word
character nor whitespace becomes a space. -/
def punctToSpace (s : List Char) : List Char :=
  s.map (fun c => if !pyWord c && !pySpace c then ' ' else c)

/-- Body of `collapseWS`; the flag records whether the scan is inside a
whitespace run whose single replacement space has already been emitted. -/
def collapseAux : Bool → List Char → List Char
  | _, [] => []
  | true, c :: cs =>
    if pySpace c then collapseAux true cs else c :: collapseAux false cs
  | false, c :: cs =>
    if pySpace c then ' ' :: collapseAux true cs else c :: collapseAux false cs

/-- `re.sub(r'\s+', ' ', s)`: every maximal run of whitespace becomes a
single space. -/
def collapseWS (s : List Char) : List Char :=
  collapseAux false s

/-- Removal of a leading whitespace run (`^\s+` alternative of the strip
pattern, also the leading half of `str.strip()`). -/
def stripStart (s : List Char) : List Char :=
  s.dropWhile pySpace

/-- Removal of a trailing whitespace run (`\s+$` alternative of the strip
pattern, also the trailing half of `str.strip()`). -/
def stripEnd : List Char → List Char
  | [] => []
  | c :: cs =>
    match stripEnd cs with
    | [] => if pySpace c then [] else [c]
    | r => c :: r

/-- `re.sub(r'^\s+|\s+$', '', s)`, equally `str.strip()`: both whitespace
runs at the ends are removed. -/
def pyStrip (s : List Char) : List Char :=
  stripEnd (stripStart s)

/-- `str.lower()` on the ASCII strings produced by the pipeline. -/
def pyLower (s : List Char) : List Char :=
  s.map Char.toLower

/-- `ImprovedDuplicateDetector.normalize_topic_name`
(`duplicate_detector.py` lines 38–79): unicode stage, ASCII projection, the
three cleanup patterns in order, then `.lower().strip()`. -/
def normalize_topic_name (name : String) : String :=
  if name = "" then ""
  else ⟨pyStrip (pyLower (pyStrip (collapseWS (punctToSpace
        (asciiProject (unicodeStage name.data))))))⟩

/-- `normalize_topic_name` of `telegram_bot.py` (lines 50–66): same stages
except that NFC recomposition is skipped (no observable difference on a
mark-free string) and the final calls are `.strip().lower()`. -/
def normalize_topic_name_bot (name : String) : String :=
  if name = "" then ""
  else ⟨pyLower (pyStrip (collapseWS (punctToSpace
        (asciiProject (unicodeStage name.data)))))⟩

/-- Body of `splitWS`; `acc` is the reversed current word. -/
def splitWSAux : List Char → List Char → List (List Char)
  | [], acc => if acc = [] then [] else [acc.reverse]
  | c :: cs, acc =>
    if pySpace c then
      if acc = [] then splitWSAux cs [] else acc.reverse :: splitWSAux cs []
    else splitWSAux cs (c :: acc)

/-- `str.split()`: the list of maximal whitespace-free nonempty pieces. -/
def splitWS (s : List Char) : List (List Char) :=
  splitWSAux s []

/-! ### `difflib.SequenceMatcher` (CPython, `isjunk = None`)

`calculate_similarity` scores strings with
`difflib.SequenceMatcher(None, a, b).ratio()`.  The embedding follows the
CPython implementation: `b2j` with automatic junk detection, the
`find_longest_match` dictionary loop with its four extension loops, and the
recursive decomposition of `get_matching_blocks`, of which only the total
matched size is needed for `ratio`. -/

/-- Automatic junk heuristic of `SequenceMatcher.__chain_b`: when `b` has at
least 200 elements, the elements occurring more than `len(b) // 100 + 1`
times in `b` are junk. -/
def bJunk (b : List Char) (c : Char) : Bool :=
  decide (200 ≤ b.length) && decide (b.length / 100 + 1 < b.count c)

/-- The indices `j ∈ [blo, bhi)` with `b[j] = c`, in increasing order, empty
for junk `c` — the `b2j.get(a[i], [])` list restricted by the
`j < blo` / `j >= bhi` guards of the inner loop. -/
def matchIndices (b : List Char) (blo bhi : Nat) (c : Char) : List Nat :=
  if bJunk b c then []
  else (List.range b.length).filter
    (fun j => decide (blo ≤ j) && decide (j < bhi) && (b.getD j ' ' == c))

/-- `j2len.get(j - 1, 0)`, with the Python convention that index `-1` is
absent from the dictionary. -/
def j2lenGet (d : List (Nat × Nat)) (j : Nat) : Nat :=
  if j = 0 then 0 else ((d.lookup (j - 1)).getD 0)

/-- The dictionary loop of `find_longest_match`: for each `i ∈ [alo, ahi)`
rebuild `newj2len` and update the current best `(besti, bestj, bestsize)`,
taking strictly longer matches only (ties keep the earliest `i`, then the
earliest `j`). -/
def flmLoop (a b : List Char) (alo ahi blo bhi : Nat) : Nat × Nat × Nat :=
  ((List.range' alo (ahi - alo)).foldl
    (fun (st : List (Nat × Nat) × (Nat × Nat × Nat)) i =>
      (matchIndices b blo bhi (a.getD i ' ')).foldl
        (fun (acc : List (Nat × Nat) × (Nat × Nat × Nat)) j =>
          let k := j2lenGet st.1 j + 1
          let d := (j, k) :: acc.1
          if acc.2.2.2 < k then (d, (i + 1 - k, j + 1 - k, k))
          else (d, acc.2))
        ([], st.2))
    ([], (alo, blo, 0))).2

/-- One of the `while` extension loops of `find_longest_match`, walking the
match leftwards over characters satisfying `p` (`p` is non-junk for the
first pair of loops and junk for the second pair). -/
def extLeft (a b : List Char) (p : Char → Bool) (alo blo : Nat) :
    Nat → Nat → Nat → Nat × Nat × Nat
  | 0, bestj, bestsize => (0, bestj, bestsize)
  | besti + 1, bestj, bestsize =>
    if alo < besti + 1 ∧ blo < bestj ∧ p (b.getD (bestj - 1) ' ') = true ∧
        a.getD besti ' ' = b.getD (bestj - 1) ' ' then
      extLeft a b p alo blo besti (bestj - 1) (bestsize + 1)
    else (besti + 1, bestj, bestsize)

/-- The rightward twin of `extLeft`.  The loop condition
`besti + bestsize < ahi` bounds the number of iterations by `ahi`, so the
explicit `fuel` argument, instantiated with `ahi` at every call site, never
runs out. -/
def extRight (a b : List Char) (p : Char → Bool) (ahi bhi besti bestj : Nat) :
    Nat → Nat → Nat
  | 0, bestsize => bestsize
  | fuel + 1, bestsize =>
    if besti + bestsize < ahi ∧ bestj + bestsize < bhi ∧
        p (b.getD (bestj + bestsize) ' ') = true ∧
        a.getD (besti + bestsize) ' ' = b.getD (bestj + bestsize) ' ' then
      extRight a b p ahi bhi besti bestj fuel (bestsize + 1)
    else bestsize

/-- `find_longest_match(alo, ahi, blo, bhi)`: dictionary loop, then the four
extension loops (non-junk leftwards, non-junk rightwards, junk leftwards,
junk rightwards). -/
def findLongestMatch (a b : List Char) (alo ahi blo bhi : Nat) :
    Nat × Nat × Nat :=
  let r0 := flmLoop a b alo ahi blo bhi
  let r1 := extLeft a b (fun c => !bJunk b c) alo blo r0.1 r0.2.1 r0.2.2
  let s2 := extRight a b (fun c => !bJunk b c) ahi bhi r1.1 r1.2.1 ahi r1.2.2
  let r3 := extLeft a b (bJunk b) alo blo r1.1 r1.2.1 s2
  let s4 := extRight a b (bJunk b) ahi bhi r3.1 r3.2.1 ahi r3.2.2
  (r3.1, r3.2.1, s4)

/-- Total size of the matching blocks of `get_matching_blocks` on the window
`[alo, ahi) × [blo, bhi)` — the recursive splitting around each longest
match.  `fuel` bounds the recursion depth; `(ahi - alo) + (bhi - blo) + 1`
always suffices because each recursive window is strictly smaller. -/
def matchTotal (a b : List Char) : Nat → Nat → Nat → Nat → Nat → Nat
  | 0, _, _, _, _ => 0
  | fuel + 1, alo, ahi, blo, bhi =>
    let m := findLongestMatch a b alo ahi blo bhi
    let i := m.1
    let j := m.2.1
    let k := m.2.2
    if k = 0 then 0
    else matchTotal a b fuel alo i blo j + k +
         matchTotal a b fuel (i + k) ahi (j + k) bhi

/-- `SequenceMatcher(None, a, b).ratio()`:
`2 * M / (len(a) + len(b))`, and `1.0` when both strings are empty. -/
def smRatio (a b : List Char) : ℚ :=
  let M := matchTotal a b (a.length + b.length + 1) 0 a.length 0 b.length
  if a.length + b.length = 0 then 1
  else (2 * M : ℚ) / ((a.length : ℚ) + (b.length : ℚ))

/-! ### `ImprovedDuplicateDetector` scoring -/

/-- The stop-word list of `ImprovedDuplicateDetector.__init__`. -/
def stop_words : List String :=
  ["channel", "group", "chat", "oficial", "official",
   "vip", "premium", "new", "novo", "nova", "the", "a", "an"]

/-- `extract_keywords` (`duplicate_detector.py` lines 81–95): the set of
words of the normalized name of length at least 2 that are not stop words. -/
def extract_keywords (name : String) : Finset String :=
  (((splitWS (normalize_topic_name name).data).map
      (fun w => (⟨w⟩ : String))).filter
    (fun w => decide (2 ≤ w.length) && decide (w ∉ stop_words))).toFinset

/-- `max((ratio of w against w2 for w2 in ws), default=0.0)`; all ratios are
nonnegative, so folding `max` from `0` agrees with Python's `max` with
`default=0.0`. -/
def bestWordMatch (w : List Char) (ws : List (List Char)) : ℚ :=
  (ws.map (fun w2 => smRatio w w2)).foldl max 0

/-- `calculate_similarity` (`duplicate_detector.py` lines 97–174), with
Python float arithmetic modelled exactly over `ℚ` and only the score (the
first component of the returned pair) retained.  The weights 0.4, 0.35 and
0.25 are the rationals 2/5, 7/20 and 1/4. -/
def calculate_similarity (name1 name2 : String) : ℚ :=
  if name1 = "" ∨ name2 = "" then 0
  else
    let norm1 := normalize_topic_name name1
    let norm2 := normalize_topic_name name2
    if norm1 = norm2 then 1
    else
      let seq := smRatio norm1.data norm2.data
      let k1 := extract_keywords name1
      let k2 := extract_keywords name2
      let kw : ℚ := if k1 ≠ ∅ ∧ k2 ≠ ∅ then
          ((k1 ∩ k2).card : ℚ) / ((k1 ∪ k2).card : ℚ)
        else 0
      let words1 := splitWS norm1.data
      let words2 := splitWS norm2.data
      let sims := words1.map (fun w1 => bestWordMatch w1 words2) ++
                  words2.map (fun w2 => bestWordMatch w2 words1)
      let tok : ℚ := if sims.length = 0 then 0
        else sims.sum / (sims.length : ℚ)
      seq * (2 / 5) + kw * (7 / 20) + tok * (1 / 4)

/-- `are_duplicates` (`duplicate_detector.py` lines 176–192), returning the
boolean verdict `similarity >= similarity_threshold`. -/
def are_duplicates (threshold : ℚ) (name1 name2 : String) : Bool :=
  decide (threshold ≤ calculate_similarity name1 name2)

/-- The best-match scan of `check_against_existing`
(`duplicate_detector.py` lines 213–223): fold over the existing keys in
order, keeping the first key attaining the maximum score (updates only on a
strictly greater score). -/
def bestExisting (new_name : String) (keys : List String) :
    Option String × ℚ :=
  keys.foldl
    (fun acc k =>
      let s := calculate_similarity new_name k
      if acc.2 < s then (some k, s) else acc)
    (none, 0)

/-- Result record of `check_against_existing` (the `all_scores` diagnostic
map is omitted). -/
structure CheckResult where
  is_duplicate : Bool
  similar_topic : Option String
  similarity : ℚ
deriving DecidableEq, Repr

/-- `check_against_existing` (`duplicate_detector.py` lines 194–245). -/
def check_against_existing (threshold : ℚ) (new_name : String)
    (existing : List (String × Int)) : CheckResult :=
  if existing = [] then ⟨false, none, 0⟩
  else
    let r := bestExisting new_name (existing.map (·.1))
    let dup := decide (threshold ≤ r.2)
    ⟨dup, if dup then r.1 else none, r.2⟩

/-! ### `find_duplicates_in_list` (`duplicate_detector.py` lines 247–277) -/

/-- The inner loop: scan the names after the seed `name1`, collecting every
not-yet-processed name that `are_duplicates` accepts against the seed and
marking it processed immediately. -/
def gatherGroup (threshold : ℚ) (name1 : String) :
    List String → List String → List String × List String
  | [], processed => ([], processed)
  | n2 :: rest, processed =>
    if n2 ∈ processed then gatherGroup threshold name1 rest processed
    else if are_duplicates threshold name1 n2 then
      let r := gatherGroup threshold name1 rest (n2 :: processed)
      (n2 :: r.1, r.2)
    else gatherGroup threshold name1 rest processed

/-- The outer loop: each unprocessed name seeds a group; groups that stay
singletons are discarded and their seed is not marked processed. -/
def fdilLoop (threshold : ℚ) : List String → List String → List (List String)
  | [], _ => []
  | name1 :: rest, processed =>
    if name1 ∈ processed then fdilLoop threshold rest processed
    else
      let g := gatherGroup threshold name1 rest processed
      if g.1 = [] then fdilLoop threshold rest g.2
      else (name1 :: g.1) :: fdilLoop threshold rest (name1 :: g.2)

/-- `find_duplicates_in_list`: greedy seed-based grouping over the topic
names in insertion order. -/
def find_duplicates_in_list (threshold : ℚ) (topics : List (String × Int)) :
    List (List String) :=
  fdilLoop threshold (topics.map (·.1)) []

/-! ### `TelegramBackupBot` registry operations (`telegram_bot.py`) -/

/-- Outcome of the external topic-creation collaborator
(`bot.create_forum_topic` plus the attribute sniffing on its result in
`get_or_create_topic` lines 196–212): the call either yields a thread id,
yields an object without a recognizable thread id attribute, or raises. -/
inductive CreateResult where
  | ok (thread_id : Int)
  | noThreadId
  | err
deriving DecidableEq, Repr

/-- Python `dict` assignment `m[k] = v`: overwrite in place if the key is
present, append otherwise. -/
def dictInsert (m : List (String × Int)) (k : String) (v : Int) :
    List (String × Int) :=
  if m.any (fun p => p.1 == k) then
    m.map (fun p => if p.1 == k then (k, v) else p)
  else m ++ [(k, v)]

/-- `get_or_create_topic` (`telegram_bot.py` lines 176–223).  The registry
state is passed explicitly and the collaborator is a parameter applied, as
in the source, to the raw name truncated to 128 characters; the result is
the returned thread id (`none` on failure) together with the new registry
state.  A successful creation stores the full raw name and the new id. -/
def get_or_create_topic (topics : List (String × Int))
    (create : String → CreateResult) (source_name : String) :
    Option Int × List (String × Int) :=
  let normalized_name := normalize_topic_name_bot source_name
  match topics.find?
      (fun p => normalize_topic_name_bot p.1 == normalized_name) with
  | some p => (some p.2, topics)
  | none =>
    match create ⟨source_name.data.take 128⟩ with
    | .ok tid => (some tid, dictInsert topics source_name tid)
    | .noThreadId => (none, topics)
    | .err => (none, topics)

/-- The two exception classes caught by `load_topics`
(`telegram_bot.py` line 163). -/
inductive LoadErr where
  | fileNotFound
  | jsonDecodeError
deriving DecidableEq, Repr

/-- `load_topics` (`telegram_bot.py` lines 153–164): the parsed content of
the topics file (an ordered string-to-int mapping) or the exception raised
while opening/parsing it.  A caught exception yields the empty registry, and
a non-empty mapping whose first key starts with `'-'` is discarded as the
legacy chat-id keyed format. -/
def load_topics (source : Except LoadErr (List (String × Int))) :
    List (String × Int) :=
  match source with
  | .error _ => []
  | .ok [] => []
  | .ok ((k, v) :: rest) =>
    if k.data.head? = some '-' then [] else (k, v) :: rest

/-! ### Spec-side definitions

These definitions transcribe the spec's wording, to be compared with the
source-side definitions above. -/

/-- The character class `[a-z0-9 ]` claimed by the spec for `normalize`
output ("only lowercase ASCII letters, digits, single spaces"). -/
def specClaimedChar (c : Char) : Bool :=
  (97 ≤ c.toNat && c.toNat ≤ 122) || (48 ≤ c.toNat && c.toNat ≤ 57) ||
  c.toNat = 32

/-- The character class actually produced by the normalizers: the spec's
class together with the underscore, which `\w` retains. -/
def outChar (c : Char) : Bool :=
  (97 ≤ c.toNat && c.toNat ≤ 122) || (48 ≤ c.toNat && c.toNat ≤ 57) ||
  c.toNat = 95 || c.toNat = 32

/-- No two consecutive characters of the list are both a space. -/
def noTwoSpaces : List Char → Bool
  | [] => true
  | c :: cs => !(c == ' ' && cs.head? == some ' ') && noTwoSpaces cs

/-- Well-formedness of normalizer output: every character is a lowercase
ASCII letter, a digit, an underscore or a space, and there is no leading,
trailing or repeated space. -/
def canonicalOut (s : List Char) : Prop :=
  (∀ c ∈ s, outChar c = true) ∧ noTwoSpaces s = true ∧
  s.head? ≠ some ' ' ∧ s.getLast? ≠ some ' '

/-- The spec's `sequence_similarity`: the `SequenceMatcher` ratio of the two
canonical forms. -/
def sequence_similarity (name1 name2 : String) : ℚ :=
  smRatio (normalize_topic_name name1).data (normalize_topic_name name2).data

/-- The spec's `keyword_similarity`: the Jaccard index of the two keyword
sets, `0` if either set is empty. -/
def keyword_similarity (name1 name2 : String) : ℚ :=
  let k1 := extract_keywords name1
  let k2 := extract_keywords name2
  if k1 ≠ ∅ ∧ k2 ≠ ∅ then ((k1 ∩ k2).card : ℚ) / ((k1 ∪ k2).card : ℚ)
  else 0

/-- The spec's `token_similarity`: every word of either canonical form is
matched against its best-scoring word on the other side and the best-match
scores are averaged. -/
def token_similarity (name1 name2 : String) : ℚ :=
  let words1 := splitWS (normalize_topic_name name1).data
  let words2 := splitWS (normalize_topic_name name2).data
  let sims := words1.map (fun w1 => bestWordMatch w1 words2) ++
              words2.map (fun w2 => bestWordMatch w2 words1)
  if sims.length = 0 then 0 else sims.sum / (sims.length : ℚ)

/-- The sequence-similarity contribution along each control path of
`calculate_similarity`: `0` on the empty path, `1` on the exact-match path
and the `SequenceMatcher` ratio on the hybrid path. -/
def seqComponent (name1 name2 : String) : ℚ :=
  if name1 = "" ∨ name2 = "" then 0
  else if normalize_topic_name name1 = normalize_topic_name name2 then 1
  else sequence_similarity name1 name2

/-! ## Character-level lemmas -/

theorem toNat_ofNat_small (n : Nat) (h : n < 55296) : (Char.ofNat n).toNat = n := by
  have hv : n.isValidChar := Or.inl h
  simp [Char.ofNat, hv, Char.ofNatAux, Char.toNat, UInt32.ofNat', UInt32.toNat]

theorem char_eq_of_toNat_eq {c d : Char} (h : c.toNat = d.toNat) : c = d := by
  apply Char.eq_of_val_eq
  apply UInt32.eq_of_toBitVec_eq
  have h9 : c.val.toNat = d.val.toNat := h
  exact BitVec.eq_of_toNat_eq h9

theorem toLower_of_not_upper {c : Char} (h : ¬(65 ≤ c.toNat ∧ c.toNat ≤ 90)) :
    c.toLower = c := by
  simp only [Char.toLower]
  rw [if_neg]
  omega

theorem toNat_toLower_of_upper {c : Char} (h1 : 65 ≤ c.toNat)
    (h2 : c.toNat ≤ 90) : c.toLower.toNat = c.toNat + 32 := by
  simp only [Char.toLower]
  rw [if_pos (by omega)]
  exact toNat_ofNat_small _ (by omega)

theorem outChar_toLower {c : Char} (h : pyWord c = true ∨ c.toNat = 32) :
    outChar c.toLower = true := by
  simp only [pyWord, Bool.or_eq_true, Bool.and_eq_true, decide_eq_true_eq] at h
  by_cases hu : 65 ≤ c.toNat ∧ c.toNat ≤ 90
  · have ht := toNat_toLower_of_upper hu.1 hu.2
    simp only [outChar, Bool.or_eq_true, Bool.and_eq_true, decide_eq_true_eq, ht]
    omega
  · rw [toLower_of_not_upper hu]
    simp only [outChar, Bool.or_eq_true, Bool.and_eq_true, decide_eq_true_eq]
    omega

theorem toLower_of_outChar {c : Char} (h : outChar c = true) : c.toLower = c := by
  apply toLower_of_not_upper
  simp only [outChar, Bool.or_eq_true, Bool.and_eq_true, decide_eq_true_eq] at h
  omega

theorem eq_space_of_pySpace_outChar {c : Char} (hs : pySpace c = true)
    (ho : outChar c = true) : c = ' ' := by
  apply char_eq_of_toNat_eq
  have h2 : (' ' : Char).toNat = 32 := rfl
  simp only [pySpace, outChar, Bool.or_eq_true, Bool.and_eq_true,
    decide_eq_true_eq] at hs ho
  omega

theorem not_pySpace_of_outChar_ne_space {c : Char} (ho : outChar c = true)
    (hne : c ≠ ' ') : pySpace c = false := by
  by_contra h
  exact hne (eq_space_of_pySpace_outChar (by simpa using h) ho)

theorem toNat_lt_128_of_outChar {c : Char} (h : outChar c = true) :
    c.toNat < 128 := by
  simp only [outChar, Bool.or_eq_true, Bool.and_eq_true, decide_eq_true_eq] at h
  omega

theorem toLower_eq_space {c : Char} (h : c.toLower = ' ') : c = ' ' := by
  by_cases hu : 65 ≤ c.toNat ∧ c.toNat ≤ 90
  · have h1 := toNat_toLower_of_upper hu.1 hu.2
    rw [h] at h1
    have h2 : (' ' : Char).toNat = 32 := rfl
    omega
  · rwa [toLower_of_not_upper hu] at h

theorem space_pySpace : pySpace ' ' = true := by decide

/-! ## `noTwoSpaces` lemmas -/

theorem noTwoSpaces_tail {c : Char} {cs : List Char}
    (h : noTwoSpaces (c :: cs) = true) : noTwoSpaces cs = true := by
  simp only [noTwoSpaces, Bool.and_eq_true] at h
  exact h.2

theorem noTwoSpaces_cons_of_head {c : Char} {cs : List Char}
    (h1 : c = ' ' → cs.head? ≠ some ' ') (h2 : noTwoSpaces cs = true) :
    noTwoSpaces (c :: cs) = true := by
  simp only [noTwoSpaces, Bool.and_eq_true, Bool.not_eq_true',
    Bool.and_eq_false_iff]
  refine ⟨?_, h2⟩
  by_cases hc : c = ' '
  · right
    have := h1 hc
    simpa using this
  · left
    simpa using hc

theorem noTwoSpaces_dropWhile (p : Char → Bool) :
    ∀ {s : List Char}, noTwoSpaces s = true →
      noTwoSpaces (s.dropWhile p) = true
  | [], h => h
  | c :: cs, h => by
    rw [List.dropWhile_cons]
    split
    · exact noTwoSpaces_dropWhile p (noTwoSpaces_tail h)
    · exact h

/-! ## Whitespace-collapse lemmas -/

theorem mem_collapseAux :
    ∀ (flag : Bool) (s : List Char) (c : Char), c ∈ collapseAux flag s →
      c = ' ' ∨ (c ∈ s ∧ pySpace c = false)
  | true, [], c, h => by simp [collapseAux] at h
  | false, [], c, h => by simp [collapseAux] at h
  | true, a :: as, c, h => by
    simp only [collapseAux] at h
    by_cases ha : pySpace a
    · rw [if_pos ha] at h
      rcases mem_collapseAux true as c h with h2 | h2
      · exact Or.inl h2
      · exact Or.inr ⟨List.mem_cons_of_mem a h2.1, h2.2⟩
    · rw [if_neg ha] at h
      rcases List.mem_cons.mp h with h2 | h2
      · subst h2
        exact Or.inr ⟨List.mem_cons_self c as, by simpa using ha⟩
      · rcases mem_collapseAux false as c h2 with h3 | h3
        · exact Or.inl h3
        · exact Or.inr ⟨List.mem_cons_of_mem a h3.1, h3.2⟩
  | false, a :: as, c, h => by
    simp only [collapseAux] at h
    by_cases ha : pySpace a
    · rw [if_pos ha] at h
      rcases List.mem_cons.mp h with h2 | h2
      · exact Or.inl h2
      · rcases mem_collapseAux true as c h2 with h3 | h3
        · exact Or.inl h3
        · exact Or.inr ⟨List.mem_cons_of_mem a h3.1, h3.2⟩
    · rw [if_neg ha] at h
      rcases List.mem_cons.mp h with h2 | h2
      · subst h2
        exact Or.inr ⟨List.mem_cons_self c as, by simpa using ha⟩
      · rcases mem_collapseAux false as c h2 with h3 | h3
        · exact Or.inl h3
        · exact Or.inr ⟨List.mem_cons_of_mem a h3.1, h3.2⟩

theorem head?_collapseAux_true :
    ∀ (s : List Char) (c : Char), (collapseAux true s).head? = some c →
      pySpace c = false
  | [], c, h => by simp [collapseAux] at h
  | a :: as, c, h => by
    simp only [collapseAux] at h
    by_cases ha : pySpace a
    · rw [if_pos ha] at h
      exact head?_collapseAux_true as c h
    · rw [if_neg ha] at h
      simp only [List.head?_cons, Option.some.injEq] at h
      subst h
      simpa using ha

theorem noTwoSpaces_collapseAux :
    ∀ (flag : Bool) (s : List Char), noTwoSpaces (collapseAux flag s) = true
  | true, [] => rfl
  | false, [] => rfl
  | true, a :: as => by
    simp only [collapseAux]
    by_cases ha : pySpace a
    · rw [if_pos ha]
      exact noTwoSpaces_collapseAux true as
    · rw [if_neg ha]
      refine noTwoSpaces_cons_of_head (fun hc _ => ?_) (noTwoSpaces_collapseAux false as)
      subst hc
      simp [space_pySpace] at ha
  | false, a :: as => by
    simp only [collapseAux]
    by_cases ha : pySpace a
    · rw [if_pos ha]
      refine noTwoSpaces_cons_of_head (fun _ hh => ?_) (noTwoSpaces_collapseAux true as)
      have := head?_collapseAux_true as ' ' hh
      rw [space_pySpace] at this
      cases this
    · rw [if_neg ha]
      refine noTwoSpaces_cons_of_head (fun hc _ => ?_) (noTwoSpaces_collapseAux false as)
      subst hc
      simp [space_pySpace] at ha

theorem collapseAux_eq_self :
    ∀ (s : List Char), (∀ c ∈ s, outChar c = true) → noTwoSpaces s = true →
      collapseAux false s = s ∧
      (s.head? ≠ some ' ' → collapseAux true s = s)
  | [], _, _ => ⟨rfl, fun _ => rfl⟩
  | a :: as, hall, hnt => by
    have hta := hall a (List.mem_cons_self a as)
    have ih := collapseAux_eq_self as
      (fun c hc => hall c (List.mem_cons_of_mem a hc)) (noTwoSpaces_tail hnt)
    by_cases ha : pySpace a = true
    · have haeq : a = ' ' := eq_space_of_pySpace_outChar ha hta
      subst haeq
      constructor
      · simp only [collapseAux, if_pos ha]
        have hhead : as.head? ≠ some ' ' := by
          intro hh
          simp only [noTwoSpaces, hh] at hnt
          simp at hnt
        rw [ih.2 hhead]
      · intro hcontra
        simp at hcontra
    · constructor
      · simp only [collapseAux, if_neg ha]
        rw [ih.1]
      · intro _
        simp only [collapseAux, if_neg ha]
        rw [ih.1]

/-! ## Strip lemmas -/

theorem head?_dropWhile_not {p : Char → Bool} :
    ∀ {s : List Char} {c : Char}, (s.dropWhile p).head? = some c →
      p c = false
  | [], c, h => by simp at h
  | a :: as, c, h => by
    rw [List.dropWhile_cons] at h
    split at h
    · exact head?_dropWhile_not h
    · simp only [List.head?_cons, Option.some.injEq] at h
      subst h
      simpa using ‹¬ p a = true›

theorem dropWhile_eq_self_of_head {p : Char → Bool} :
    ∀ {s : List Char}, (∀ c, s.head? = some c → p c = false) →
      s.dropWhile p = s
  | [], _ => rfl
  | a :: as, h => by
    have := h a rfl
    rw [List.dropWhile_cons, if_neg (by simp [this])]

theorem stripEnd_cons_nil {a : Char} {as : List Char} (h : stripEnd as = []) :
    stripEnd (a :: as) = if pySpace a then [] else [a] := by
  simp only [stripEnd, h]

theorem stripEnd_cons_cons {a : Char} {as r : List Char} {r0 : Char}
    (h : stripEnd as = r0 :: r) : stripEnd (a :: as) = a :: r0 :: r := by
  simp only [stripEnd, h]

theorem mem_stripEnd :
    ∀ (s : List Char) (c : Char), c ∈ stripEnd s → c ∈ s
  | [], c, h => by simp [stripEnd] at h
  | a :: as, c, h => by
    rcases hr : stripEnd as with _ | ⟨r0, r⟩
    · rw [stripEnd_cons_nil hr] at h
      by_cases ha : pySpace a
      · rw [if_pos ha] at h
        simp at h
      · rw [if_neg ha] at h
        simp only [List.mem_singleton] at h
        subst h
        exact List.mem_cons_self c as
    · rw [stripEnd_cons_cons hr] at h
      rcases List.mem_cons.mp h with h2 | h2
      · subst h2
        exact List.mem_cons_self c as
      · exact List.mem_cons_of_mem a (mem_stripEnd as c (hr ▸ h2))

theorem head?_stripEnd :
    ∀ (s : List Char), stripEnd s = [] ∨ (stripEnd s).head? = s.head?
  | [] => Or.inl rfl
  | a :: as => by
    rcases hr : stripEnd as with _ | ⟨r0, r⟩
    · rw [stripEnd_cons_nil hr]
      by_cases ha : pySpace a
      · rw [if_pos ha]
        exact Or.inl rfl
      · rw [if_neg ha]
        exact Or.inr rfl
    · rw [stripEnd_cons_cons hr]
      exact Or.inr rfl

theorem getLast?_stripEnd :
    ∀ (s : List Char) (c : Char), (stripEnd s).getLast? = some c →
      pySpace c = false
  | [], c, h => by simp [stripEnd] at h
  | a :: as, c, h => by
    rcases hr : stripEnd as with _ | ⟨r0, r⟩
    · rw [stripEnd_cons_nil hr] at h
      by_cases ha : pySpace a
      · rw [if_pos ha] at h
        simp at h
      · rw [if_neg ha] at h
        simp only [List.getLast?_singleton, Option.some.injEq] at h
        subst h
        simpa using ha
    · rw [stripEnd_cons_cons hr, List.getLast?_cons_cons] at h
      exact getLast?_stripEnd as c (hr ▸ h)

theorem noTwoSpaces_stripEnd :
    ∀ (s : List Char), noTwoSpaces s = true → noTwoSpaces (stripEnd s) = true
  | [], h => h
  | a :: as, h => by
    rcases hr : stripEnd as with _ | ⟨r0, r⟩
    · rw [stripEnd_cons_nil hr]
      by_cases ha : pySpace a
      · rw [if_pos ha]
        rfl
      · rw [if_neg ha]
        simp [noTwoSpaces]
    · rw [stripEnd_cons_cons hr]
      refine noTwoSpaces_cons_of_head (fun hc hh => ?_) ?_
      · subst hc
        rcases head?_stripEnd as with h2 | h2
        · rw [h2] at hr
          cases hr
        · rw [hr] at h2
          simp only [List.head?_cons] at h2 hh
          rw [hh] at h2
          simp only [noTwoSpaces, ← h2] at h
          simp at h
      · have := noTwoSpaces_stripEnd as (noTwoSpaces_tail h)
        rwa [hr] at this

theorem stripEnd_eq_self :
    ∀ (s : List Char), (∀ c, s.getLast? = some c → pySpace c = false) →
      stripEnd s = s
  | [], _ => rfl
  | a :: as, h => by
    rcases has : as with _ | ⟨b, bs⟩
    · subst has
      have hna := h a (by simp)
      rw [stripEnd_cons_nil (show stripEnd ([] : List Char) = [] from rfl),
        if_neg (by simp [hna])]
    · subst has
      have hrec : stripEnd (b :: bs) = b :: bs := by
        apply stripEnd_eq_self
        intro c hc
        apply h
        rw [List.getLast?_cons_cons]
        exact hc
      rw [stripEnd_cons_cons hrec]

/-! ## Map (lowercase) lemmas -/

theorem noTwoSpaces_pyLower :
    ∀ (s : List Char), noTwoSpaces s = true → noTwoSpaces (pyLower s) = true
  | [], h => h
  | a :: as, h => by
    simp only [pyLower, List.map_cons]
    refine noTwoSpaces_cons_of_head (fun hc hh => ?_) ?_
    · have ha : a = ' ' := toLower_eq_space hc
      rcases has : as with _ | ⟨b, bs⟩
      · rw [has] at hh
        simp [pyLower] at hh
      · rw [has] at hh
        simp only [List.map_cons, List.head?_cons, Option.some.injEq] at hh
        have hb : b = ' ' := toLower_eq_space hh
        subst ha
        rw [has, hb] at h
        simp [noTwoSpaces] at h
    · exact noTwoSpaces_pyLower as (noTwoSpaces_tail h)

theorem pyLower_eq_self (s : List Char) (h : ∀ c ∈ s, outChar c = true) :
    pyLower s = s := by
  simp only [pyLower]
  rw [List.map_congr_left (fun c hc => toLower_of_outChar (h c hc))]
  exact List.map_id s

/-! ## Early-stage lemmas -/

theorem outChar_word_or_space {c : Char} (h : outChar c = true) :
    pyWord c = true ∨ pySpace c = true := by
  simp only [outChar, pyWord, pySpace, Bool.or_eq_true, Bool.and_eq_true,
    decide_eq_true_eq] at h ⊢
  omega

theorem mem_punctToSpace (s : List Char) (c : Char) (h : c ∈ punctToSpace s) :
    pyWord c = true ∨ pySpace c = true := by
  simp only [punctToSpace, List.mem_map] at h
  obtain ⟨d, _, hd⟩ := h
  by_cases hpw : pyWord d = true
  · rw [if_neg (by simp [hpw])] at hd
    subst hd
    exact Or.inl hpw
  · by_cases hps : pySpace d = true
    · rw [if_neg (by simp [hps])] at hd
      subst hd
      exact Or.inr hps
    · rw [if_pos (by simp [hpw, hps])] at hd
      subst hd
      exact Or.inr space_pySpace

theorem punctToSpace_eq_self (s : List Char)
    (h : ∀ c ∈ s, outChar c = true) : punctToSpace s = s := by
  simp only [punctToSpace]
  have : ∀ c ∈ s, (if !pyWord c && !pySpace c then ' ' else c) = id c := by
    intro c hc
    rcases outChar_word_or_space (h c hc) with h2 | h2 <;>
      simp [h2]
  rw [List.map_congr_left this]
  exact List.map_id s

theorem asciiProject_eq_self (s : List Char)
    (h : ∀ c ∈ s, outChar c = true) : asciiProject s = s := by
  simp only [asciiProject]
  have : ∀ c ∈ s, (if c.toNat < 128 then c else ' ') = id c := by
    intro c hc
    simp [toNat_lt_128_of_outChar (h c hc)]
  rw [List.map_congr_left this]
  exact List.map_id s

theorem nfdDecomp_eq_of_lt {c : Char} (h : c.toNat < 128) :
    nfdDecomp c = [c] := by
  have h1 : c ≠ 'é' := by
    intro he
    rw [he] at h
    have : ('é' : Char).toNat = 233 := rfl
    omega
  have h2 : c ≠ 'á' := by
    intro he
    rw [he] at h
    have : ('á' : Char).toNat = 225 := rfl
    omega
  have h3 : c ≠ 'ç' := by
    intro he
    rw [he] at h
    have : ('ç' : Char).toNat = 231 := rfl
    omega
  simp only [nfdDecomp, if_neg h1, if_neg h2, if_neg h3]

theorem flatten_map_singleton (s : List Char) :
    (s.map (fun c => [c])).flatten = s := by
  induction s with
  | nil => rfl
  | cons a as ih => simp [ih]

theorem unicodeStage_eq_self (s : List Char)
    (h : ∀ c ∈ s, outChar c = true) : unicodeStage s = s := by
  simp only [unicodeStage]
  rw [List.map_congr_left
    (fun c hc => nfdDecomp_eq_of_lt (toNat_lt_128_of_outChar (h c hc)))]
  rw [flatten_map_singleton]
  rw [List.filter_eq_self.mpr]
  intro c hc
  have := toNat_lt_128_of_outChar (h c hc)
  simp only [isMn, Bool.not_eq_true', Bool.and_eq_false_iff,
    decide_eq_false_iff_not]
  left
  omega

/-! ## Canonical-output lemmas -/

theorem pyStrip_props (s : List Char) (hnt : noTwoSpaces s = true) :
    noTwoSpaces (pyStrip s) = true ∧ (pyStrip s).head? ≠ some ' ' ∧
    (pyStrip s).getLast? ≠ some ' ' ∧ (∀ c ∈ pyStrip s, c ∈ s) := by
  refine ⟨?_, ?_, ?_, ?_⟩
  · exact noTwoSpaces_stripEnd _ (noTwoSpaces_dropWhile pySpace hnt)
  · rcases head?_stripEnd (stripStart s) with h2 | h2
    · simp [pyStrip, h2]
    · simp only [pyStrip, h2]
      intro hcontra
      have := head?_dropWhile_not hcontra
      rw [space_pySpace] at this
      cases this
  · intro hcontra
    have := getLast?_stripEnd _ _ hcontra
    rw [space_pySpace] at this
    cases this
  · intro c hc
    exact List.dropWhile_subset pySpace (mem_stripEnd _ c hc)

theorem canonicalOut_pyLower (s : List Char)
    (hq : ∀ c ∈ s, pyWord c = true ∨ c = ' ')
    (hnt : noTwoSpaces s = true) (hh : s.head? ≠ some ' ')
    (hl : s.getLast? ≠ some ' ') : canonicalOut (pyLower s) := by
  refine ⟨?_, noTwoSpaces_pyLower s hnt, ?_, ?_⟩
  · intro c hc
    simp only [pyLower, List.mem_map] at hc
    obtain ⟨d, hd, hdc⟩ := hc
    subst hdc
    apply outChar_toLower
    rcases hq d hd with h2 | h2
    · exact Or.inl h2
    · subst h2
      exact Or.inr rfl
  · rw [pyLower, List.head?_map]
    intro hcontra
    rcases hx : s.head? with _ | d
    · rw [hx] at hcontra
      cases hcontra
    · rw [hx] at hcontra
      simp only [Option.map_some', Option.some.injEq] at hcontra
      have := toLower_eq_space hcontra
      subst this
      exact hh hx
  · rw [pyLower, List.getLast?_map]
    intro hcontra
    rcases hx : s.getLast? with _ | d
    · rw [hx] at hcontra
      cases hcontra
    · rw [hx] at hcontra
      simp only [Option.map_some', Option.some.injEq] at hcontra
      have := toLower_eq_space hcontra
      subst this
      exact hl hx

/-- The characters, spacing and trimming discipline of the full cleanup
pipeline: both normalizers produce canonical output from any input list. -/
theorem canonicalOut_stages (s : List Char) :
    canonicalOut (pyStrip (pyLower (pyStrip (collapseWS (punctToSpace s))))) ∧
    canonicalOut (pyLower (pyStrip (collapseWS (punctToSpace s)))) := by
  have hq1 : ∀ c ∈ collapseWS (punctToSpace s),
      pyWord c = true ∨ c = ' ' := by
    intro c hc
    rcases mem_collapseAux false (punctToSpace s) c hc with h2 | h2
    · exact Or.inr h2
    · rcases mem_punctToSpace s c h2.1 with h3 | h3
      · exact Or.inl h3
      · rw [h2.2] at h3
        cases h3
  have hnt1 : noTwoSpaces (collapseWS (punctToSpace s)) = true :=
    noTwoSpaces_collapseAux false (punctToSpace s)
  obtain ⟨hnt2, hh2, hl2, hmem2⟩ := pyStrip_props _ hnt1
  have hq2 : ∀ c ∈ pyStrip (collapseWS (punctToSpace s)),
      pyWord c = true ∨ c = ' ' := fun c hc => hq1 c (hmem2 c hc)
  have hcan2 : canonicalOut (pyLower (pyStrip (collapseWS (punctToSpace s)))) :=
    canonicalOut_pyLower _ hq2 hnt2 hh2 hl2
  obtain ⟨hall3, hnt3, hh3, hl3⟩ := hcan2
  obtain ⟨hnt4, hh4, hl4, hmem4⟩ := pyStrip_props _ hnt3
  exact ⟨⟨fun c hc => hall3 c (hmem4 c hc), hnt4, hh4, hl4⟩,
    hall3, hnt3, hh3, hl3⟩

/-- Output well-formedness of the detector's normalizer. -/
theorem canonicalOut_normalize (x : String) :
    canonicalOut (normalize_topic_name x).data := by
  by_cases hx : x = ""
  · subst hx
    refine ⟨?_, ?_, ?_, ?_⟩ <;> decide
  · simp only [normalize_topic_name, if_neg hx]
    exact (canonicalOut_stages _).1

/-- Output well-formedness of the bot's normalizer. -/
theorem canonicalOut_normalize_bot (x : String) :
    canonicalOut (normalize_topic_name_bot x).data := by
  by_cases hx : x = ""
  · subst hx
    refine ⟨?_, ?_, ?_, ?_⟩ <;> decide
  · simp only [normalize_topic_name_bot, if_neg hx]
    exact (canonicalOut_stages _).2

/-! ## Pipeline identity on canonical strings -/

/-- `str.strip()` leaves a canonical string unchanged. -/
theorem pyStrip_eq_self_of_canonical {s : List Char} (hco : canonicalOut s) :
    pyStrip s = s := by
  obtain ⟨hall, _, hh, hl⟩ := hco
  have hmemhead : ∀ c, s.head? = some c → pySpace c = false := by
    intro c hc
    have hmem : c ∈ s := List.mem_of_mem_head? (by simp [hc])
    exact not_pySpace_of_outChar_ne_space (hall c hmem)
      (fun he => hh (he ▸ hc))
  have hmemlast : ∀ c, s.getLast? = some c → pySpace c = false := by
    intro c hc
    have hmem : c ∈ s := List.mem_of_getLast?_eq_some hc
    exact not_pySpace_of_outChar_ne_space (hall c hmem)
      (fun he => hl (he ▸ hc))
  rw [pyStrip, stripStart, dropWhile_eq_self_of_head hmemhead]
  exact stripEnd_eq_self s hmemlast

/-- Every stage of the cleanup pipeline is the identity on a canonical
string, so running the detector's normalizer on its own output changes
nothing. -/
theorem normalize_of_canonical (r : String) (hco : canonicalOut r.data) :
    normalize_topic_name r = r := by
  obtain ⟨hall, hnt, hh, hl⟩ := hco
  by_cases hempty : r = ""
  · rw [hempty]
    rfl
  · have hps : pyStrip r.data = r.data :=
      pyStrip_eq_self_of_canonical ⟨hall, hnt, hh, hl⟩
    simp only [normalize_topic_name, if_neg hempty]
    rw [unicodeStage_eq_self _ hall, asciiProject_eq_self _ hall,
      punctToSpace_eq_self _ hall]
    rw [show collapseWS r.data = r.data from
      (collapseAux_eq_self r.data hall hnt).1]
    rw [hps, pyLower_eq_self _ hall, hps]

/-- The detector's normalizer and the bot's normalizer agree on every input:
the only differences — the NFC recomposition step and the order of the final
strip and lowercase calls — are unobservable. -/
theorem normalize_eq_bot (x : String) :
    normalize_topic_name x = normalize_topic_name_bot x := by
  by_cases hx : x = ""
  · rw [hx]
    rfl
  · have hco := (canonicalOut_stages
      (asciiProject (unicodeStage x.data))).2
    simp only [normalize_topic_name, normalize_topic_name_bot, if_neg hx]
    congr 1
    exact pyStrip_eq_self_of_canonical hco

/-! ## Scoring helper lemmas -/

/-- Non-empty names with equal canonical forms hit the exact-match fast path
and score `1.0`. -/
theorem calc_eq_one_of_norm_eq {n1 n2 : String} (h1 : n1 ≠ "") (h2 : n2 ≠ "")
    (he : normalize_topic_name n1 = normalize_topic_name n2) :
    calculate_similarity n1 n2 = 1 := by
  simp only [calculate_similarity]
  rw [if_neg (by simp [h1, h2]), if_pos he]

/-! ## Claim theorems -/

/-- C3 (counterexample): the spec claims `normalize` output matches
`^[a-z0-9 ]*$`, but underscores survive the `[^\w\s]` cleanup: both
normalizers map `"_"` to `"_"`, which contains a character outside the
claimed class. -/
theorem C3_counterexample :
    normalize_topic_name "_" = "_" ∧ normalize_topic_name_bot "_" = "_" ∧
    (normalize_topic_name "_").data.all specClaimedChar = false := by
  refine ⟨by decide, by decide, by decide⟩

/-- C3 (amended): for every input, the output of both normalizers consists
only of lowercase ASCII letters, digits, underscores and spaces
(`^[a-z0-9_ ]*$`), with no leading, trailing or consecutive spaces. -/
theorem C3_amended (x : String) :
    canonicalOut (normalize_topic_name x).data ∧
    canonicalOut (normalize_topic_name_bot x).data :=
  ⟨canonicalOut_normalize x, canonicalOut_normalize_bot x⟩

/-- C6: `normalize_topic_name` is idempotent — normalizing an
already-normalized name returns it unchanged. -/
theorem C6_normalize_idempotent (x : String) :
    normalize_topic_name (normalize_topic_name x) = normalize_topic_name x :=
  normalize_of_canonical _ (canonicalOut_normalize x)

/-- C8: `load_topics` returns the empty registry when opening or parsing the
topics file raises `FileNotFoundError` or `json.JSONDecodeError`. -/
theorem C8_load_error_yields_empty (e : LoadErr) :
    load_topics (Except.error e) = [] := rfl

/-- C10: a well-formed non-empty stored mapping whose first key starts with
`'-'` is discarded wholesale as the legacy chat-id keyed format. -/
theorem C10_legacy_format_discarded (k : String) (v : Int)
    (rest : List (String × Int)) (h : k.data.head? = some '-') :
    load_topics (Except.ok ((k, v) :: rest)) = [] := by
  simp only [load_topics, if_pos h]

/-- C10 (witness): a concrete legacy-format registry is discarded. -/
theorem C10_witness :
    ("-1001234" : String).data.head? = some '-' ∧
    load_topics (Except.ok [("-1001234", 7), ("News", 1)]) = [] :=
  ⟨by decide, C10_legacy_format_discarded "-1001234" 7 [("News", 1)] (by decide)⟩

/-- C9: two non-empty raw names that both normalize to the empty string
score exactly `1.0` through the exact-match fast path, and `are_duplicates`
accepts them at every threshold at most `1`. -/
theorem C9_degenerate_names_score_one (n1 n2 : String) (h1 : n1 ≠ "")
    (h2 : n2 ≠ "") (hn1 : normalize_topic_name n1 = "")
    (hn2 : normalize_topic_name n2 = "") :
    calculate_similarity n1 n2 = 1 ∧
    ∀ th : ℚ, th ≤ 1 → are_duplicates th n1 n2 = true := by
  have hc := calc_eq_one_of_norm_eq h1 h2 (hn1.trans hn2.symm)
  refine ⟨hc, fun th hth => ?_⟩
  simp only [are_duplicates, hc]
  exact decide_eq_true hth

/-- C9 (witness): two distinct emoji-only names are scored `1.0` and
accepted at the default threshold `0.85`. -/
theorem C9_witness :
    ("☕" : String) ≠ "" ∧ ("🔥" : String) ≠ "" ∧
    normalize_topic_name "☕" = "" ∧ normalize_topic_name "🔥" = "" ∧
    ("☕" : String) ≠ "🔥" ∧
    calculate_similarity "☕" "🔥" = 1 ∧
    are_duplicates (17/20) "☕" "🔥" = true := by
  refine ⟨by decide, by decide, by decide, by decide, by decide, ?_, ?_⟩
  · exact (C9_degenerate_names_score_one "☕" "🔥" (by decide) (by decide)
      (by decide) (by decide)).1
  · exact (C9_degenerate_names_score_one "☕" "🔥" (by decide) (by decide)
      (by decide) (by decide)).2 (17/20) (by norm_num)

/-- C7: when no existing key matches the new name's canonical form and the
external topic-creation collaborator raises, `get_or_create_topic` returns
`None` and leaves the registry unchanged. -/
theorem C7_creation_failure_leaves_registry (topics : List (String × Int))
    (create : String → CreateResult) (source_name : String)
    (hnomatch : ∀ p ∈ topics,
      normalize_topic_name_bot p.1 ≠ normalize_topic_name_bot source_name)
    (herr : create ⟨source_name.data.take 128⟩ = CreateResult.err) :
    get_or_create_topic topics create source_name = (none, topics) := by
  have hfind : topics.find? (fun p =>
      normalize_topic_name_bot p.1 == normalize_topic_name_bot source_name) =
      none := by
    rw [List.find?_eq_none]
    intro p hp hbeq
    exact hnomatch p hp (by simpa using hbeq)
  simp only [get_or_create_topic, hfind, herr]

/-- C7 (witness): a failing collaborator call on an unmatched name leaves a
concrete one-entry registry unchanged and yields no handle. -/
theorem C7_witness :
    (∀ p ∈ [(("alpha" : String), (1 : Int))],
      normalize_topic_name_bot p.1 ≠ normalize_topic_name_bot "beta") ∧
    get_or_create_topic [("alpha", 1)] (fun _ => CreateResult.err) "beta" =
      (none, [("alpha", 1)]) := by
  have h : ∀ p ∈ [(("alpha" : String), (1 : Int))],
      normalize_topic_name_bot p.1 ≠ normalize_topic_name_bot "beta" := by
    decide
  exact ⟨h, C7_creation_failure_leaves_registry [("alpha", 1)]
    (fun _ => CreateResult.err) "beta" h rfl⟩

/-- C5: on the hybrid path (both inputs non-empty, canonical forms
different), the returned score is exactly
`0.40 · sequence_similarity + 0.35 · keyword_similarity +
0.25 · token_similarity`, with `keyword_similarity` the Jaccard index of the
keyword sets (`0` if either is empty). -/
theorem C5_composite_formula (n1 n2 : String) (h1 : n1 ≠ "") (h2 : n2 ≠ "")
    (hne : normalize_topic_name n1 ≠ normalize_topic_name n2) :
    calculate_similarity n1 n2 =
      (2/5) * sequence_similarity n1 n2 + (7/20) * keyword_similarity n1 n2 +
      (1/4) * token_similarity n1 n2 := by
  simp only [calculate_similarity, sequence_similarity, keyword_similarity,
    token_similarity]
  rw [if_neg (by simp [h1, h2]), if_neg hne]
  ring

/-- C5 (witness): the formula evaluated at a concrete hybrid-path pair. -/
theorem C5_witness :
    normalize_topic_name "aa ab abcd cd ddd" ≠
      normalize_topic_name "aa ab abcd cd" ∧
    calculate_similarity "aa ab abcd cd ddd" "aa ab abcd cd" =
      (2/5) * sequence_similarity "aa ab abcd cd ddd" "aa ab abcd cd" +
      (7/20) * keyword_similarity "aa ab abcd cd ddd" "aa ab abcd cd" +
      (1/4) * token_similarity "aa ab abcd cd ddd" "aa ab abcd cd" := by
  have hne : normalize_topic_name "aa ab abcd cd ddd" ≠
      normalize_topic_name "aa ab abcd cd" := by decide
  exact ⟨hne, C5_composite_formula "aa ab abcd cd ddd" "aa ab abcd cd"
    (by decide) (by decide) hne⟩

/-- C4 (counterexample): the composite score is not symmetric —
`SequenceMatcher`'s ratio depends on argument order, and for the pair
`("ab", "bacb")` the two orders score `47/120` and `31/120`. -/
theorem C4_counterexample :
    calculate_similarity "ab" "bacb" = 47/120 ∧
    calculate_similarity "bacb" "ab" = 31/120 ∧
    calculate_similarity "ab" "bacb" ≠ calculate_similarity "bacb" "ab" := by
  refine ⟨?_, ?_, ?_⟩ <;> with_unfolding_all decide

/-- Jaccard keyword similarity is symmetric. -/
theorem jaccard_sym (k1 k2 : Finset String) :
    (if k1 ≠ ∅ ∧ k2 ≠ ∅ then ((k1 ∩ k2).card : ℚ) / ((k1 ∪ k2).card : ℚ)
      else 0) =
    (if k2 ≠ ∅ ∧ k1 ≠ ∅ then ((k2 ∩ k1).card : ℚ) / ((k2 ∪ k1).card : ℚ)
      else 0) := by
  rw [Finset.inter_comm, Finset.union_comm]
  exact if_congr and_comm rfl rfl

/-- The average of the pooled best-match scores is symmetric. -/
theorem avg_append_comm (A B : List ℚ) :
    (if (A ++ B).length = 0 then (0 : ℚ)
      else (A ++ B).sum / (((A ++ B).length : Nat) : ℚ)) =
    (if (B ++ A).length = 0 then (0 : ℚ)
      else (B ++ A).sum / (((B ++ A).length : Nat) : ℚ)) := by
  simp only [List.length_append, List.sum_append]
  rw [Nat.add_comm A.length, add_comm A.sum]

/-- C4 (amended): the keyword and token components are symmetric, as are the
empty-input and exact-match paths, so the asymmetry of the composite score
is exactly `0.4` times the asymmetry of the sequence component. -/
theorem C4_amended (a b : String) :
    calculate_similarity a b - calculate_similarity b a =
      (2/5) * (seqComponent a b - seqComponent b a) := by
  by_cases h1 : a = "" ∨ b = ""
  · have h2 : b = "" ∨ a = "" := h1.symm
    simp only [calculate_similarity, seqComponent, if_pos h1, if_pos h2]
    ring
  · have h2 : ¬(b = "" ∨ a = "") := fun h => h1 h.symm
    by_cases he : normalize_topic_name a = normalize_topic_name b
    · simp only [calculate_similarity, seqComponent, if_neg h1, if_neg h2,
        if_pos he, if_pos he.symm]
      ring
    · have he2 : normalize_topic_name b ≠ normalize_topic_name a :=
        fun h => he h.symm
      simp only [calculate_similarity, seqComponent, sequence_similarity,
        if_neg h1, if_neg h2, if_neg he, if_neg he2]
      rw [jaccard_sym (extract_keywords a) (extract_keywords b)]
      rw [avg_append_comm
        ((splitWS (normalize_topic_name a).data).map
          (fun w1 => bestWordMatch w1 (splitWS (normalize_topic_name b).data)))
        ((splitWS (normalize_topic_name b).data).map
          (fun w2 => bestWordMatch w2 (splitWS (normalize_topic_name a).data)))]
      ring

/-- A key whose similarity score with the new name is strictly below `1`
cannot share its canonical form with the new name. -/
theorem botnorm_ne_of_calc_lt_one {n k : String} (hn : n ≠ "") (hk : k ≠ "")
    (hlt : calculate_similarity n k < 1) :
    ¬ normalize_topic_name_bot k = normalize_topic_name_bot n := by
  intro he
  have he2 : normalize_topic_name n = normalize_topic_name k := by
    rw [normalize_eq_bot, normalize_eq_bot]
    exact he.symm
  rw [calc_eq_one_of_norm_eq hn hk he2] at hlt
  exact lt_irrefl 1 hlt

/-- C1 (counterexample): with registry `{"aa ab abcd cd": 101}` and
threshold `0.85`, the new name `"aa ab abcd cd ddd"` has maximum composite
similarity exactly `0.86` against the existing keys — `check_against_existing`
even reports it as a duplicate — yet `get_or_create_topic` invokes creation,
returns the freshly created handle `202` instead of `101`, and appends a
second entry to the registry. -/
theorem C1_counterexample :
    calculate_similarity "aa ab abcd cd ddd" "aa ab abcd cd" = 43/50 ∧
    ((17 : ℚ)/20 ≤ 43/50) ∧
    (check_against_existing (17/20) "aa ab abcd cd ddd"
      [("aa ab abcd cd", 101)]).is_duplicate = true ∧
    (check_against_existing (17/20) "aa ab abcd cd ddd"
      [("aa ab abcd cd", 101)]).similarity = 43/50 ∧
    get_or_create_topic [("aa ab abcd cd", 101)]
      (fun _ => CreateResult.ok 202) "aa ab abcd cd ddd" =
      (some 202, [("aa ab abcd cd", 101), ("aa ab abcd cd ddd", 202)]) := by
  refine ⟨?_, ?_, ?_, ?_, ?_⟩ <;> with_unfolding_all decide

/-- C1 (amended): `get_or_create_topic` never consults the similarity
threshold — whenever every existing key scores strictly below `1.0`
(equivalently, no key is canonical-form equal to the new name; a maximum
score of `0.86`, or of `0.84`, both qualify), a successful collaborator call
creates a new, distinct topic and appends it to the registry. -/
theorem C1_amended (topics : List (String × Int))
    (create : String → CreateResult) (source_name : String) (tid : Int)
    (hn : source_name ≠ "") (hk : ∀ p ∈ topics, p.1 ≠ "")
    (hlt : ∀ p ∈ topics, calculate_similarity source_name p.1 < 1)
    (hc : create ⟨source_name.data.take 128⟩ = CreateResult.ok tid) :
    get_or_create_topic topics create source_name =
      (some tid, topics ++ [(source_name, tid)]) := by
  have hfind : topics.find? (fun p =>
      normalize_topic_name_bot p.1 ==
        normalize_topic_name_bot source_name) = none := by
    rw [List.find?_eq_none]
    intro p hp hbeq
    exact botnorm_ne_of_calc_lt_one hn (hk p hp) (hlt p hp)
      (by simpa using hbeq)
  have hany : topics.any (fun p => p.1 == source_name) = false := by
    rw [List.any_eq_false]
    intro p hp hbeq
    have hpeq : p.1 = source_name := by simpa using hbeq
    have hone := hlt p hp
    rw [hpeq, calc_eq_one_of_norm_eq hn hn rfl] at hone
    exact lt_irrefl 1 hone
  simp only [get_or_create_topic, hfind, hc, dictInsert, hany]
  simp

/-- C1 (witness): the amended claim applied at the `0.86` counterexample
instance. -/
theorem C1_witness :
    (∀ p ∈ [(("aa ab abcd cd" : String), (101 : Int))],
      calculate_similarity "aa ab abcd cd ddd" p.1 < 1) ∧
    get_or_create_topic [("aa ab abcd cd", 101)]
      (fun _ => CreateResult.ok 202) "aa ab abcd cd ddd" =
      (some 202, [("aa ab abcd cd", 101), ("aa ab abcd cd ddd", 202)]) := by
  have hlt : ∀ p ∈ [(("aa ab abcd cd" : String), (101 : Int))],
      calculate_similarity "aa ab abcd cd ddd" p.1 < 1 := by
    intro p hp
    simp only [List.mem_singleton] at hp
    subst hp
    with_unfolding_all decide
  refine ⟨hlt, C1_amended _ _ _ 202 (by decide) ?_ hlt rfl⟩
  intro p hp
  simp only [List.mem_singleton] at hp
  subst hp
  decide

/-- C2 (counterexample): the chain `A = "alpha beta gamma"`,
`B = "alpha beta gamma x"`, `C = "alpha beta gamma xq"` satisfies
`sim(A,B) ≥ 0.85`, `sim(B,C) ≥ 0.85`, `sim(A,C) < 0.85`, yet
`find_duplicates_in_list` over the registry `[A, B, C]` returns the single
group `[A, B]` — `C` is not chained in, contradicting the claimed
single-link three-element cluster. -/
theorem C2_counterexample :
    ((17 : ℚ)/20 ≤ calculate_similarity "alpha beta gamma"
      "alpha beta gamma x") ∧
    ((17 : ℚ)/20 ≤ calculate_similarity "alpha beta gamma x"
      "alpha beta gamma xq") ∧
    (calculate_similarity "alpha beta gamma" "alpha beta gamma xq" <
      (17 : ℚ)/20) ∧
    find_duplicates_in_list (17/20)
      [("alpha beta gamma", 1), ("alpha beta gamma x", 2),
       ("alpha beta gamma xq", 3)] =
      [["alpha beta gamma", "alpha beta gamma x"]] := by
  refine ⟨?_, ?_, ?_, ?_⟩ <;> with_unfolding_all decide

/-- C2 (amended): grouping is star-shaped around the seed, not single-link:
with the chain hypotheses, iterating the middle name `B` first does put all
three names in one cluster, but iterating `A` first yields the cluster
`[A, B]` with `C` left unclustered. -/
theorem C2_amended (th : ℚ) (A B C : String) (v1 v2 v3 : Int)
    (hAB : th ≤ calculate_similarity A B)
    (hBA : th ≤ calculate_similarity B A)
    (hBC : th ≤ calculate_similarity B C)
    (hAC : ¬ th ≤ calculate_similarity A C)
    (hCA : C ≠ A) (hCB : C ≠ B) :
    find_duplicates_in_list th [(B, v2), (A, v1), (C, v3)] = [[B, A, C]] ∧
    find_duplicates_in_list th [(A, v1), (B, v2), (C, v3)] = [[A, B]] := by
  have hdBA : are_duplicates th B A = true := by
    simp only [are_duplicates]
    exact decide_eq_true hBA
  have hdBC : are_duplicates th B C = true := by
    simp only [are_duplicates]
    exact decide_eq_true hBC
  have hdAB : are_duplicates th A B = true := by
    simp only [are_duplicates]
    exact decide_eq_true hAB
  have hdAC : are_duplicates th A C = false := by
    simp only [are_duplicates]
    exact decide_eq_false hAC
  constructor
  · simp only [find_duplicates_in_list, List.map, fdilLoop, gatherGroup,
      hdBA, hdBC, List.not_mem_nil, List.mem_cons, List.mem_singleton,
      if_false, if_true]
    simp [hCA, hCB]
  · simp only [find_duplicates_in_list, List.map, fdilLoop, gatherGroup,
      hdAB, hdAC, List.not_mem_nil, List.mem_cons, List.mem_singleton,
      if_false, if_true]
    simp [hCA, hCB]

/-- C2 (witness): the amended claim applied at the concrete chain. -/
theorem C2_witness :
    ((17 : ℚ)/20 ≤ calculate_similarity "alpha beta gamma x"
      "alpha beta gamma") ∧
    find_duplicates_in_list (17/20)
      [("alpha beta gamma x", 2), ("alpha beta gamma", 1),
       ("alpha beta gamma xq", 3)] =
      [["alpha beta gamma x", "alpha beta gamma", "alpha beta gamma xq"]] := by
  have h1 : (17 : ℚ)/20 ≤ calculate_similarity "alpha beta gamma"
      "alpha beta gamma x" := by with_unfolding_all decide
  have h2 : (17 : ℚ)/20 ≤ calculate_similarity "alpha beta gamma x"
      "alpha beta gamma" := by with_unfolding_all decide
  have h3 : (17 : ℚ)/20 ≤ calculate_similarity "alpha beta gamma x"
      "alpha beta gamma xq" := by with_unfolding_all decide
  have h4 : ¬ (17 : ℚ)/20 ≤ calculate_similarity "alpha beta gamma"
      "alpha beta gamma xq" := by with_unfolding_all decide
  exact ⟨h2, (C2_amended (17/20) "alpha beta gamma" "alpha beta gamma x"
    "alpha beta gamma xq" 1 2 3 h1 h2 h3 h4 (by decide) (by decide)).1⟩

end TelegramShareBot
